import Mathlib

/-!
Verification of the scenario scoring and normalization engine of the
sustainability calculator (`cf_emissions.py`).  The engine is embedded
shallowly: real numbers become exact rationals (`ℚ`), pandas columns become
`List ℚ`, and the partial numpy reductions (`np.min` / `np.max`, which raise
`ValueError` on an empty array) become `Option`-valued functions.
-/

namespace CF

/-! ## Cells and input-boundary coercion

A raw table cell is either a number, a missing value (NaN), or a non-numeric
entry.  `pd.to_numeric(col, errors='coerce').fillna(d)` maps a number to
itself and everything else to the fill value `d`. -/

inductive Cell where
  | num (q : ℚ)
  | missing
  | nonNumeric
deriving DecidableEq

def toNumericFillna (d : ℚ) : Cell → ℚ
  | Cell.num q => q
  | Cell.missing => d
  | Cell.nonNumeric => d

/-- Coercion applied to each scenario-percentage column
(`pd.to_numeric(edited_scenario_df[col], errors='coerce').fillna(100.0)`,
cf_emissions.py line 430). -/
def coercePctColumn (col : List Cell) : List ℚ :=
  col.map (toNumericFillna 100)

/-- Coercion applied to each criteria column
(`pd.to_numeric(..., errors='coerce').fillna(1.0)` followed by
`.clip(lower=1.0, upper=10.0)` for scale criteria, cf_emissions.py
lines 609-612). -/
def coerceCriteriaColumn (isScale : Bool) (col : List Cell) : List ℚ :=
  let numeric := col.map (toNumericFillna 1)
  if isScale then numeric.map (fun v => min (max v 1) 10) else numeric

/-! ## Emissions calculator

Baseline (BAU): per-item daily emissions are `usage * factor`, annual
emissions are `daily * 365`, and the totals are column sums
(cf_emissions.py lines 302-303, 324-325). -/

def bauDaily (usages factors : List ℚ) : List ℚ :=
  List.zipWith (· * ·) usages factors

def bauAnnual (usages factors : List ℚ) : List ℚ :=
  (bauDaily usages factors).map (· * 365)

def totalDailyBAU (usages factors : List ℚ) : ℚ :=
  (bauDaily usages factors).sum

def totalAnnualBAU (usages factors : List ℚ) : ℚ :=
  (bauAnnual usages factors).sum

structure ScenarioResult where
  daily : ℚ
  annual : ℚ
  savingKg : ℚ
  savingPct : ℚ
deriving DecidableEq

/-- One scenario column of the results loop (cf_emissions.py lines 434-449):
`scenario_daily_emissions = (usages * pcts/100 * factors).sum()`,
`scenario_annual_emissions = daily * 365`,
`co2_saving_kg = total_annual_bau - scenario_annual_emissions`,
`co2_saving_percent = saving/total_annual_bau*100 if total_annual_bau != 0 else 0`. -/
def computeScenario (usages factors pcts : List ℚ) : ScenarioResult :=
  let daily :=
    (List.zipWith (· * ·)
      (List.zipWith (fun u p => u * (p / 100)) usages pcts) factors).sum
  let annual := daily * 365
  let baseAnnual := totalAnnualBAU usages factors
  let saving := baseAnnual - annual
  { daily := daily
    annual := annual
    savingKg := saving
    savingPct := if baseAnnual ≠ 0 then saving / baseAnnual * 100 else 0 }

end CF

namespace CF

lemma zipWith_mul_div_sum (us ps fs : List ℚ)
    (h1 : fs.length = us.length) (h2 : ps.length = us.length) :
    (List.zipWith (· * ·)
      (List.zipWith (fun u p => u * (p / 100)) us ps) fs).sum
      = ∑ i in Finset.range us.length,
          us.getD i 0 * (ps.getD i 0 / 100) * fs.getD i 0 := by
  induction us generalizing ps fs with
  | nil => simp
  | cons u us ih =>
    cases ps with
    | nil => simp at h2
    | cons p ps =>
      cases fs with
      | nil => simp at h1
      | cons f fs =>
        simp only [List.length_cons, Nat.succ.injEq] at h1 h2
        simp only [List.zipWith_cons_cons, List.sum_cons, List.length_cons]
        rw [Finset.sum_range_succ']
        simp only [List.getD_cons_succ, List.getD_cons_zero]
        rw [ih ps fs h1 h2]
        ring

lemma totalAnnualBAU_eq_sum (us fs : List ℚ) (h1 : fs.length = us.length) :
    totalAnnualBAU us fs
      = ∑ i in Finset.range us.length, us.getD i 0 * fs.getD i 0 * 365 := by
  unfold totalAnnualBAU bauAnnual bauDaily
  induction us generalizing fs with
  | nil => simp
  | cons u us ih =>
    cases fs with
    | nil => simp at h1
    | cons f fs =>
      simp only [List.length_cons, Nat.succ.injEq] at h1
      simp only [List.zipWith_cons_cons, List.map_cons, List.sum_cons,
        List.length_cons]
      rw [Finset.sum_range_succ']
      simp only [List.getD_cons_succ, List.getD_cons_zero]
      rw [ih fs h1]
      ring

lemma zipWith_pct_replicate_100 (us : List ℚ) :
    List.zipWith (fun u p => u * (p / 100)) us (List.replicate us.length 100)
      = us := by
  induction us with
  | nil => rfl
  | cons u us ih =>
    simp only [List.length_cons, List.replicate_succ, List.zipWith_cons_cons, ih]
    norm_num

lemma sum_map_mul_365 (l : List ℚ) : (l.map (· * 365)).sum = l.sum * 365 := by
  induction l with
  | nil => simp
  | cons x l ih => simp [ih, add_mul]

/-- C1: for every item list (usages, emission factors) and per-item percentage
vector (of matching lengths), the scenario computation returns daily emissions
equal to the sum over items of `usage_i * pct_i/100 * factor_i`, annual
emissions equal to `daily * 365`, `saving_kg` equal to baseline annual minus
scenario annual (baseline annual being the sum of `usage_i * factor_i * 365`),
and `saving_pct` equal to `saving_kg / baseline_annual * 100` when baseline
annual is nonzero and exactly `0` when baseline annual is `0`. -/
theorem computeScenario_spec (usages factors pcts : List ℚ)
    (h1 : factors.length = usages.length) (h2 : pcts.length = usages.length) :
    (computeScenario usages factors pcts).daily
        = ∑ i in Finset.range usages.length,
            usages.getD i 0 * (pcts.getD i 0 / 100) * factors.getD i 0
    ∧ (computeScenario usages factors pcts).annual
        = (computeScenario usages factors pcts).daily * 365
    ∧ totalAnnualBAU usages factors
        = ∑ i in Finset.range usages.length,
            usages.getD i 0 * factors.getD i 0 * 365
    ∧ (computeScenario usages factors pcts).savingKg
        = totalAnnualBAU usages factors
            - (computeScenario usages factors pcts).annual
    ∧ (totalAnnualBAU usages factors ≠ 0 →
        (computeScenario usages factors pcts).savingPct
          = (computeScenario usages factors pcts).savingKg
              / totalAnnualBAU usages factors * 100)
    ∧ (totalAnnualBAU usages factors = 0 →
        (computeScenario usages factors pcts).savingPct = 0) := by
  refine ⟨?_, ?_, ?_, ?_, ?_, ?_⟩
  · simpa [computeScenario] using zipWith_mul_div_sum usages pcts factors h1 h2
  · simp [computeScenario]
  · exact totalAnnualBAU_eq_sum usages factors h1
  · simp [computeScenario]
  · intro h
    simp [computeScenario, h]
  · intro h
    simp [computeScenario, h]

theorem computeScenario_spec_witness :
    (computeScenario [10, 20] [2, 3] [50, 100]).daily
      = ∑ i in Finset.range (([10, 20] : List ℚ).length),
          ([10, 20] : List ℚ).getD i 0
            * (([50, 100] : List ℚ).getD i 0 / 100)
            * ([2, 3] : List ℚ).getD i 0 :=
  (computeScenario_spec [10, 20] [2, 3] [50, 100] rfl rfl).1

/-- C2: with non-negative usages and factors, a scenario whose percentage is
100 for every item yields annual emissions equal to the baseline annual total
(the baseline sums `daily_i * 365` item by item, the scenario multiplies the
summed daily total by 365 — equal over exact arithmetic), hence
`saving_kg = 0` and `saving_pct = 0`. -/
theorem computeScenario_at_100_pct (usages factors : List ℚ)
    (hu : ∀ u ∈ usages, 0 ≤ u) (hf : ∀ f ∈ factors, 0 ≤ f)
    (h1 : factors.length = usages.length) :
    (computeScenario usages factors (List.replicate usages.length 100)).annual
        = totalAnnualBAU usages factors
    ∧ (computeScenario usages factors
        (List.replicate usages.length 100)).savingKg = 0
    ∧ (computeScenario usages factors
        (List.replicate usages.length 100)).savingPct = 0 := by
  have hdaily :
      (List.zipWith (· * ·)
        (List.zipWith (fun u p => u * (p / 100)) usages
          (List.replicate usages.length 100)) factors).sum
        = (bauDaily usages factors).sum := by
    rw [zipWith_pct_replicate_100]
    rfl
  have hannual :
      (computeScenario usages factors
        (List.replicate usages.length 100)).annual
        = totalAnnualBAU usages factors := by
    simp only [computeScenario, totalAnnualBAU, bauAnnual]
    rw [hdaily, sum_map_mul_365]
  refine ⟨hannual, ?_, ?_⟩
  · simp only [computeScenario, totalAnnualBAU, bauAnnual] at hannual ⊢
    rw [hdaily, sum_map_mul_365]
    ring
  · have hsaving :
        totalAnnualBAU usages factors
          - (computeScenario usages factors
              (List.replicate usages.length 100)).annual = 0 := by
      rw [hannual]; ring
    simp only [computeScenario, totalAnnualBAU, bauAnnual] at hsaving ⊢
    rw [hdaily, sum_map_mul_365] at hsaving ⊢
    rw [hsaving]
    by_cases h : ((bauDaily usages factors).sum * 365 : ℚ) = 0 <;> simp [h]

theorem computeScenario_at_100_pct_witness :
    (computeScenario [2, 3] [5, 7]
      (List.replicate ([2, 3] : List ℚ).length 100)).savingPct = 0 :=
  (computeScenario_at_100_pct [2, 3] [5, 7]
    (by norm_num [List.forall_mem_cons])
    (by norm_num [List.forall_mem_cons]) rfl).2.2

/-! ## Criteria normalizer

`np.min` / `np.max` of a non-empty vector; the `Option`-valued versions below
model that numpy raises `ValueError` on an empty array. -/

def listMin : List ℚ → ℚ
  | [] => 0
  | x :: xs => xs.foldr min x

def listMax : List ℚ → ℚ
  | [] => 0
  | x :: xs => xs.foldr max x

def npMin (l : List ℚ) : Option ℚ :=
  match l with
  | [] => none
  | _ :: _ => some (listMin l)

def npMax (l : List ℚ) : Option ℚ :=
  match l with
  | [] => none
  | _ :: _ => some (listMax l)

/-- A criterion's directionality: `scale` columns are passed through
unchanged; `invert` covers "Other - Negative Trend", "Return on Investment
(ROI)(years)" and "Initial investment" (all three share the identical
reverse-scale block in the source); `posTrend` is "Other - Positive Trend". -/
inductive Polarity where
  | scale
  | invert
  | posTrend
deriving DecidableEq

/-- Normalization of one criterion column (cf_emissions.py lines 641-671):
with `mn = np.min(values)` and `mx = np.max(values)`, a tie (`mx == mn`)
yields all-10 when `mn ≠ 0` and all-0 otherwise; otherwise `invert` maps
each `v` to `10 - 9*(v - mn)/(mx - mn)` and `posTrend` maps each `v` to
`1 + 9*(v - mn)/(mx - mn)`. -/
def normalizeValues (p : Polarity) (values : List ℚ) : List ℚ :=
  match p with
  | Polarity.scale => values
  | Polarity.invert =>
      if listMax values = listMin values then
        (if listMin values ≠ 0 then values.map (fun _ => 10)
         else values.map (fun _ => 0))
      else
        values.map (fun v =>
          10 - 9 * (v - listMin values) / (listMax values - listMin values))
  | Polarity.posTrend =>
      if listMax values = listMin values then
        (if listMin values ≠ 0 then values.map (fun _ => 10)
         else values.map (fun _ => 0))
      else
        values.map (fun v =>
          1 + 9 * (v - listMin values) / (listMax values - listMin values))

end CF

namespace CF

lemma foldr_min_mem (x : ℚ) (xs : List ℚ) : xs.foldr min x ∈ x :: xs := by
  induction xs generalizing x with
  | nil => simp
  | cons y ys ih =>
    simp only [List.foldr_cons]
    rcases min_choice y (ys.foldr min x) with h | h
    · rw [h]
      exact List.mem_cons_of_mem _ (List.mem_cons_self _ _)
    · rw [h]
      rcases List.mem_cons.mp (ih x) with h2 | h2
      · rw [h2]
        exact List.mem_cons_self _ _
      · exact List.mem_cons_of_mem _ (List.mem_cons_of_mem _ h2)

lemma foldr_min_le (x : ℚ) (xs : List ℚ) :
    ∀ a ∈ x :: xs, xs.foldr min x ≤ a := by
  induction xs generalizing x with
  | nil =>
    intro a ha
    simp only [List.mem_singleton] at ha
    simp [ha]
  | cons y ys ih =>
    intro a ha
    simp only [List.foldr_cons]
    rcases List.mem_cons.mp ha with rfl | ha2
    · exact le_trans (min_le_right _ _) (ih a a (List.mem_cons_self _ _))
    · rcases List.mem_cons.mp ha2 with rfl | ha3
      · exact min_le_left _ _
      · exact le_trans (min_le_right _ _) (ih x a (List.mem_cons_of_mem _ ha3))

lemma foldr_max_mem (x : ℚ) (xs : List ℚ) : xs.foldr max x ∈ x :: xs := by
  induction xs generalizing x with
  | nil => simp
  | cons y ys ih =>
    simp only [List.foldr_cons]
    rcases max_choice y (ys.foldr max x) with h | h
    · rw [h]
      exact List.mem_cons_of_mem _ (List.mem_cons_self _ _)
    · rw [h]
      rcases List.mem_cons.mp (ih x) with h2 | h2
      · rw [h2]
        exact List.mem_cons_self _ _
      · exact List.mem_cons_of_mem _ (List.mem_cons_of_mem _ h2)

lemma foldr_max_ge (x : ℚ) (xs : List ℚ) :
    ∀ a ∈ x :: xs, a ≤ xs.foldr max x := by
  induction xs generalizing x with
  | nil =>
    intro a ha
    simp only [List.mem_singleton] at ha
    simp [ha]
  | cons y ys ih =>
    intro a ha
    simp only [List.foldr_cons]
    rcases List.mem_cons.mp ha with rfl | ha2
    · exact le_trans (ih a a (List.mem_cons_self _ _)) (le_max_right _ _)
    · rcases List.mem_cons.mp ha2 with rfl | ha3
      · exact le_max_left _ _
      · exact le_trans (ih x a (List.mem_cons_of_mem _ ha3)) (le_max_right _ _)

lemma listMin_mem (l : List ℚ) (h : l ≠ []) : listMin l ∈ l := by
  cases l with
  | nil => exact absurd rfl h
  | cons x xs => exact foldr_min_mem x xs

lemma listMin_le (l : List ℚ) : ∀ a ∈ l, listMin l ≤ a := by
  cases l with
  | nil => intro a ha; simp at ha
  | cons x xs => exact foldr_min_le x xs

lemma listMax_mem (l : List ℚ) (h : l ≠ []) : listMax l ∈ l := by
  cases l with
  | nil => exact absurd rfl h
  | cons x xs => exact foldr_max_mem x xs

lemma listMax_ge (l : List ℚ) : ∀ a ∈ l, a ≤ listMax l := by
  cases l with
  | nil => intro a ha; simp at ha
  | cons x xs => exact foldr_max_ge x xs

lemma listMin_le_listMax (l : List ℚ) (h : l ≠ []) : listMin l ≤ listMax l :=
  listMax_ge l (listMin l) (listMin_mem l h)

lemma listMin_perm {l₁ l₂ : List ℚ} (h : l₁.Perm l₂) :
    listMin l₁ = listMin l₂ := by
  cases l₁ with
  | nil =>
    have : l₂ = [] := h.symm.eq_nil
    rw [this]
  | cons x xs =>
    have hne₁ : (x :: xs) ≠ ([] : List ℚ) := by simp
    have hne₂ : l₂ ≠ [] := by
      intro h2
      rw [h2] at h
      exact hne₁ h.eq_nil
    exact le_antisymm
      (listMin_le _ _ (h.mem_iff.mpr (listMin_mem l₂ hne₂)))
      (listMin_le _ _ (h.mem_iff.mp (listMin_mem _ hne₁)))

lemma listMax_perm {l₁ l₂ : List ℚ} (h : l₁.Perm l₂) :
    listMax l₁ = listMax l₂ := by
  cases l₁ with
  | nil =>
    have : l₂ = [] := h.symm.eq_nil
    rw [this]
  | cons x xs =>
    have hne₁ : (x :: xs) ≠ ([] : List ℚ) := by simp
    have hne₂ : l₂ ≠ [] := by
      intro h2
      rw [h2] at h
      exact hne₁ h.eq_nil
    exact le_antisymm
      (listMax_ge _ _ (h.mem_iff.mp (listMax_mem _ hne₁)))
      (listMax_ge _ _ (h.mem_iff.mpr (listMax_mem l₂ hne₂)))

/-- Uniqueness of the minimum: anything that is a member and a lower bound
equals `listMin`. -/
lemma listMin_unique {l : List ℚ} {mn : ℚ} (hmem : mn ∈ l)
    (hle : ∀ a ∈ l, mn ≤ a) : listMin l = mn := by
  have hne : l ≠ [] := by
    intro h
    rw [h] at hmem
    simp at hmem
  exact le_antisymm (listMin_le l mn hmem) (hle _ (listMin_mem l hne))

lemma listMax_unique {l : List ℚ} {mx : ℚ} (hmem : mx ∈ l)
    (hge : ∀ a ∈ l, a ≤ mx) : listMax l = mx := by
  have hne : l ≠ [] := by
    intro h
    rw [h] at hmem
    simp at hmem
  exact le_antisymm (hge _ (listMax_mem l hne)) (listMax_ge l mx hmem)

lemma getD_map (f : ℚ → ℚ) (l : List ℚ) (i : ℕ) (h : i < l.length) :
    (l.map f).getD i 0 = f (l.getD i 0) := by
  induction l generalizing i with
  | nil => simp at h
  | cons x xs ih =>
    cases i with
    | zero => simp
    | succ j =>
      simp only [List.map_cons, List.getD_cons_succ]
      exact ih j (by simpa using h)

end CF

namespace CF

/-! Branch equations for `normalizeValues`. -/

lemma normalizeValues_invert_tie10 (vs : List ℚ)
    (htie : listMax vs = listMin vs) (hz : listMin vs ≠ 0) :
    normalizeValues Polarity.invert vs = vs.map (fun _ => 10) := by
  simp only [normalizeValues]
  rw [if_pos htie, if_pos hz]

lemma normalizeValues_invert_tie0 (vs : List ℚ)
    (htie : listMax vs = listMin vs) (hz : listMin vs = 0) :
    normalizeValues Polarity.invert vs = vs.map (fun _ => 0) := by
  simp only [normalizeValues]
  rw [if_pos htie, if_neg (by simpa using hz)]

lemma normalizeValues_invert_main (vs : List ℚ)
    (htie : listMax vs ≠ listMin vs) :
    normalizeValues Polarity.invert vs
      = vs.map (fun v =>
          10 - 9 * (v - listMin vs) / (listMax vs - listMin vs)) := by
  simp only [normalizeValues]
  rw [if_neg htie]

lemma normalizeValues_posTrend_tie10 (vs : List ℚ)
    (htie : listMax vs = listMin vs) (hz : listMin vs ≠ 0) :
    normalizeValues Polarity.posTrend vs = vs.map (fun _ => 10) := by
  simp only [normalizeValues]
  rw [if_pos htie, if_pos hz]

lemma normalizeValues_posTrend_tie0 (vs : List ℚ)
    (htie : listMax vs = listMin vs) (hz : listMin vs = 0) :
    normalizeValues Polarity.posTrend vs = vs.map (fun _ => 0) := by
  simp only [normalizeValues]
  rw [if_pos htie, if_neg (by simpa using hz)]

lemma normalizeValues_posTrend_main (vs : List ℚ)
    (htie : listMax vs ≠ listMin vs) :
    normalizeValues Polarity.posTrend vs
      = vs.map (fun v =>
          1 + 9 * (v - listMin vs) / (listMax vs - listMin vs)) := by
  simp only [normalizeValues]
  rw [if_neg htie]

end CF

namespace CF

/-- C3: for a non-empty column of raw values with minimum `mn` and maximum
`mx` (characterized abstractly as a member that bounds all members): in a tie
(`mx = mn`) both the `invert` and `posTrend` normalizers output 10 at every
position when `mn ≠ 0` and 0 at every position when `mn = 0`; otherwise
`invert` outputs `10 - 9*(v - mn)/(mx - mn)` and `posTrend` outputs
`1 + 9*(v - mn)/(mx - mn)` at each position. -/
theorem normalizeValues_formula (vs : List ℚ) (mn mx : ℚ)
    (hmn : mn ∈ vs ∧ ∀ a ∈ vs, mn ≤ a)
    (hmx : mx ∈ vs ∧ ∀ a ∈ vs, a ≤ mx) :
    (mx = mn → mn ≠ 0 →
        normalizeValues Polarity.invert vs = vs.map (fun _ => 10)
        ∧ normalizeValues Polarity.posTrend vs = vs.map (fun _ => 10))
    ∧ (mx = mn → mn = 0 →
        normalizeValues Polarity.invert vs = vs.map (fun _ => 0)
        ∧ normalizeValues Polarity.posTrend vs = vs.map (fun _ => 0))
    ∧ (mx ≠ mn → ∀ i < vs.length,
        (normalizeValues Polarity.invert vs).getD i 0
            = 10 - 9 * (vs.getD i 0 - mn) / (mx - mn)
        ∧ (normalizeValues Polarity.posTrend vs).getD i 0
            = 1 + 9 * (vs.getD i 0 - mn) / (mx - mn)) := by
  have hmn' : listMin vs = mn := listMin_unique hmn.1 hmn.2
  have hmx' : listMax vs = mx := listMax_unique hmx.1 hmx.2
  refine ⟨?_, ?_, ?_⟩
  · intro htie hz
    exact ⟨normalizeValues_invert_tie10 vs (by rw [hmn', hmx', htie])
        (by rw [hmn']; exact hz),
      normalizeValues_posTrend_tie10 vs (by rw [hmn', hmx', htie])
        (by rw [hmn']; exact hz)⟩
  · intro htie hz
    exact ⟨normalizeValues_invert_tie0 vs (by rw [hmn', hmx', htie])
        (by rw [hmn']; exact hz),
      normalizeValues_posTrend_tie0 vs (by rw [hmn', hmx', htie])
        (by rw [hmn']; exact hz)⟩
  · intro hne i hi
    have hne' : listMax vs ≠ listMin vs := by rw [hmn', hmx']; exact hne
    constructor
    · rw [normalizeValues_invert_main vs hne', getD_map _ vs i hi, hmn', hmx']
    · rw [normalizeValues_posTrend_main vs hne', getD_map _ vs i hi, hmn',
        hmx']

theorem normalizeValues_formula_witness :
    ((100 : ℚ) ∈ ([100, 200, 100] : List ℚ)
        ∧ ∀ a ∈ ([100, 200, 100] : List ℚ), (100 : ℚ) ≤ a)
    ∧ ((200 : ℚ) ∈ ([100, 200, 100] : List ℚ)
        ∧ ∀ a ∈ ([100, 200, 100] : List ℚ), a ≤ (200 : ℚ))
    ∧ (normalizeValues Polarity.invert [100, 200, 100]).getD 0 0
        = 10 - 9 * (((100 : ℚ)) - 100) / (200 - 100) := by
  have h1 : (100 : ℚ) ∈ ([100, 200, 100] : List ℚ)
      ∧ ∀ a ∈ ([100, 200, 100] : List ℚ), (100 : ℚ) ≤ a := by
    constructor
    · simp
    · norm_num [List.forall_mem_cons]
  have h2 : (200 : ℚ) ∈ ([100, 200, 100] : List ℚ)
      ∧ ∀ a ∈ ([100, 200, 100] : List ℚ), a ≤ (200 : ℚ) := by
    constructor
    · simp
    · norm_num [List.forall_mem_cons]
  refine ⟨h1, h2, ?_⟩
  have h3 := (normalizeValues_formula [100, 200, 100] 100 200 h1 h2).2.2
    (by norm_num) 0 (by norm_num)
  simpa using h3.1

/-- C4: for every non-empty column of raw values and both the `invert` and
`posTrend` polarities, every normalized output lies in `[1, 10]`, except when
all inputs are equal and the common value is 0, in which case every output
is 0. -/
theorem normalizeValues_range (vs : List ℚ) (hne : vs ≠ [])
    (p : Polarity) (hp : p = Polarity.invert ∨ p = Polarity.posTrend) :
    (¬(listMax vs = listMin vs ∧ listMin vs = 0) →
        ∀ x ∈ normalizeValues p vs, 1 ≤ x ∧ x ≤ 10)
    ∧ ((listMax vs = listMin vs ∧ listMin vs = 0) →
        ∀ x ∈ normalizeValues p vs, x = 0) := by
  constructor
  · intro hnz x hx
    by_cases htie : listMax vs = listMin vs
    · have hz : listMin vs ≠ 0 := fun h => hnz ⟨htie, h⟩
      have heq : normalizeValues p vs = vs.map (fun _ => 10) := by
        rcases hp with rfl | rfl
        · exact normalizeValues_invert_tie10 vs htie hz
        · exact normalizeValues_posTrend_tie10 vs htie hz
      rw [heq] at hx
      obtain ⟨v, _, rfl⟩ := List.mem_map.mp hx
      norm_num
    · have hlt : listMin vs < listMax vs :=
        lt_of_le_of_ne (listMin_le_listMax vs hne) (Ne.symm htie)
      have hpos : (0 : ℚ) < listMax vs - listMin vs := by linarith
      rcases hp with rfl | rfl
      · rw [normalizeValues_invert_main vs htie] at hx
        obtain ⟨v, hv, rfl⟩ := List.mem_map.mp hx
        have hvlo : listMin vs ≤ v := listMin_le vs v hv
        have hvhi : v ≤ listMax vs := listMax_ge vs v hv
        have hq0 : (0 : ℚ) ≤ (v - listMin vs) / (listMax vs - listMin vs) :=
          div_nonneg (by linarith) (le_of_lt hpos)
        have hq1 : (v - listMin vs) / (listMax vs - listMin vs) ≤ 1 :=
          (div_le_one hpos).mpr (by linarith)
        have h9 : 9 * (v - listMin vs) / (listMax vs - listMin vs)
            = 9 * ((v - listMin vs) / (listMax vs - listMin vs)) :=
          mul_div_assoc 9 _ _
        rw [h9]
        constructor
        · linarith
        · linarith
      · rw [normalizeValues_posTrend_main vs htie] at hx
        obtain ⟨v, hv, rfl⟩ := List.mem_map.mp hx
        have hvlo : listMin vs ≤ v := listMin_le vs v hv
        have hvhi : v ≤ listMax vs := listMax_ge vs v hv
        have hq0 : (0 : ℚ) ≤ (v - listMin vs) / (listMax vs - listMin vs) :=
          div_nonneg (by linarith) (le_of_lt hpos)
        have hq1 : (v - listMin vs) / (listMax vs - listMin vs) ≤ 1 :=
          (div_le_one hpos).mpr (by linarith)
        have h9 : 9 * (v - listMin vs) / (listMax vs - listMin vs)
            = 9 * ((v - listMin vs) / (listMax vs - listMin vs)) :=
          mul_div_assoc 9 _ _
        rw [h9]
        constructor
        · linarith
        · linarith
  · intro htie x hx
    obtain ⟨h1, h2⟩ := htie
    have heq : normalizeValues p vs = vs.map (fun _ => 0) := by
      rcases hp with rfl | rfl
      · exact normalizeValues_invert_tie0 vs h1 h2
      · exact normalizeValues_posTrend_tie0 vs h1 h2
    rw [heq] at hx
    obtain ⟨v, _, rfl⟩ := List.mem_map.mp hx
    rfl

theorem normalizeValues_range_witness :
    (([50, 50, 50] : List ℚ) ≠ [])
    ∧ (¬(listMax [50, 50, 50] = listMin [50, 50, 50]
          ∧ listMin ([50, 50, 50] : List ℚ) = 0) →
        ∀ x ∈ normalizeValues Polarity.invert [50, 50, 50],
          1 ≤ x ∧ x ≤ 10) := by
  constructor
  · simp
  · exact (normalizeValues_range [50, 50, 50] (by simp) Polarity.invert
      (Or.inl rfl)).1

end CF
namespace CF

/-! ## Scenario × criterion matrix, aggregation and ranking

A row of the criteria table is a scenario name with one raw (already
coerced) value per selected criterion; column `j` of the matrix is the list
of the rows' `j`-th values.  "Run Model" (cf_emissions.py lines 626-696)
normalizes each column according to its polarity, sums each row to a total
score, min-max rescales the totals (tie → the constant 5), and ranks by
`rank(method='min', ascending=False)`. -/

structure Row where
  name : String
  vals : List ℚ
deriving DecidableEq

def colVals (rows : List Row) (j : ℕ) : List ℚ :=
  rows.map (fun r => r.vals.getD j 0)

/-- The scaled criteria table: column `j` is `normalizeValues pol_j` of raw
column `j` (scale columns pass through unchanged). -/
def normCol (pols : List Polarity) (rows : List Row) (j : ℕ) : List ℚ :=
  normalizeValues (pols.getD j Polarity.scale) (colVals rows j)

/-- `Total Score` of the scenario at row index `i`: the sum of its scaled
criterion values (`scaled_criteria_df[selected_criteria].sum(axis=1)`). -/
def totalScoreAt (pols : List Polarity) (rows : List Row) (i : ℕ) : ℚ :=
  ((List.range pols.length).map (fun j => (normCol pols rows j).getD i 0)).sum

def totals (pols : List Polarity) (rows : List Row) : List ℚ :=
  (List.range rows.length).map (totalScoreAt pols rows)

/-- `Normalized Score` column: min-max rescaling of the totals to `[1,10]`,
with the constant 5 when all totals are equal (cf_emissions.py
lines 677-682). -/
def normTotals (pols : List Polarity) (rows : List Row) : List ℚ :=
  let ts := totals pols rows
  if listMax ts = listMin ts then ts.map (fun _ => 5)
  else ts.map (fun t => 1 + 9 * (t - listMin ts) / (listMax ts - listMin ts))

/-- `rank(method='min', ascending=False)`: the rank of a score is one plus
the number of strictly greater scores (cf_emissions.py line 696). -/
def ranks (scores : List ℚ) : List ℕ :=
  scores.map (fun s => 1 + scores.countP (fun t => decide (s < t)))

/-- The ranked output table: each scenario name paired with its rank. -/
def runModel (pols : List Polarity) (rows : List Row) :
    List (String × ℕ) :=
  List.zipWith (fun r k => (r.name, k)) rows (ranks (normTotals pols rows))

/-! Row-level reformulation used to reason about permutations: every derived
quantity of a row depends only on the row itself and on column/total
statistics that are invariant under reordering of the rows. -/

def rowScore (pols : List Polarity) (rows : List Row) (r : Row) : ℚ :=
  ((List.range pols.length).map (fun j =>
    match pols.getD j Polarity.scale with
    | Polarity.scale => r.vals.getD j 0
    | Polarity.invert =>
        if listMax (colVals rows j) = listMin (colVals rows j) then
          (if listMin (colVals rows j) ≠ 0 then 10 else 0)
        else
          10 - 9 * (r.vals.getD j 0 - listMin (colVals rows j))
            / (listMax (colVals rows j) - listMin (colVals rows j))
    | Polarity.posTrend =>
        if listMax (colVals rows j) = listMin (colVals rows j) then
          (if listMin (colVals rows j) ≠ 0 then 10 else 0)
        else
          1 + 9 * (r.vals.getD j 0 - listMin (colVals rows j))
            / (listMax (colVals rows j) - listMin (colVals rows j)))).sum

def rowNormTotal (pols : List Polarity) (rows : List Row) (r : Row) : ℚ :=
  let ts := rows.map (rowScore pols rows)
  if listMax ts = listMin ts then 5
  else 1 + 9 * (rowScore pols rows r - listMin ts)
    / (listMax ts - listMin ts)

def rowRank (pols : List Polarity) (rows : List Row) (r : Row) : ℕ :=
  1 + rows.countP (fun r' =>
    decide (rowNormTotal pols rows r < rowNormTotal pols rows r'))

end CF

namespace CF

/-- Position `i` of a normalized column as a function of the raw value at
position `i` (matching the corresponding branch of `rowScore`). -/
lemma normCol_getD (pols : List Polarity) (rows : List Row) (j i : ℕ)
    (hi : i < rows.length) :
    (normCol pols rows j).getD i 0
      = (match pols.getD j Polarity.scale with
         | Polarity.scale => (rows.getD i ⟨"", []⟩).vals.getD j 0
         | Polarity.invert =>
             if listMax (colVals rows j) = listMin (colVals rows j) then
               (if listMin (colVals rows j) ≠ 0 then 10 else 0)
             else
               10 - 9 * ((rows.getD i ⟨"", []⟩).vals.getD j 0
                   - listMin (colVals rows j))
                 / (listMax (colVals rows j) - listMin (colVals rows j))
         | Polarity.posTrend =>
             if listMax (colVals rows j) = listMin (colVals rows j) then
               (if listMin (colVals rows j) ≠ 0 then 10 else 0)
             else
               1 + 9 * ((rows.getD i ⟨"", []⟩).vals.getD j 0
                   - listMin (colVals rows j))
                 / (listMax (colVals rows j) - listMin (colVals rows j))) := by
  have hlen : i < (colVals rows j).length := by
    simpa [colVals] using hi
  have hcol : (colVals rows j).getD i 0
      = (rows.getD i ⟨"", []⟩).vals.getD j 0 := by
    unfold colVals
    induction rows generalizing i with
    | nil => simp at hi
    | cons r rs ih =>
      cases i with
      | zero => simp
      | succ k =>
        simp only [List.map_cons, List.getD_cons_succ]
        exact ih k (by simpa using hi) (by simpa [colVals] using hlen)
  cases hp : pols.getD j Polarity.scale with
  | scale =>
    simp only [normCol, hp, normalizeValues]
    exact hcol
  | invert =>
    simp only [normCol, hp]
    by_cases htie : listMax (colVals rows j) = listMin (colVals rows j)
    · by_cases hz : listMin (colVals rows j) ≠ 0
      · rw [normalizeValues_invert_tie10 _ htie hz, getD_map _ _ i hlen]
        simp [htie, hz]
      · rw [normalizeValues_invert_tie0 _ htie (by simpa using hz),
          getD_map _ _ i hlen]
        simp [htie, hz]
    · rw [normalizeValues_invert_main _ htie, getD_map _ _ i hlen, hcol]
      simp [htie]
  | posTrend =>
    simp only [normCol, hp]
    by_cases htie : listMax (colVals rows j) = listMin (colVals rows j)
    · by_cases hz : listMin (colVals rows j) ≠ 0
      · rw [normalizeValues_posTrend_tie10 _ htie hz, getD_map _ _ i hlen]
        simp [htie, hz]
      · rw [normalizeValues_posTrend_tie0 _ htie (by simpa using hz),
          getD_map _ _ i hlen]
        simp [htie, hz]
    · rw [normalizeValues_posTrend_main _ htie, getD_map _ _ i hlen, hcol]
      simp [htie]

lemma totalScoreAt_eq_rowScore (pols : List Polarity) (rows : List Row)
    (i : ℕ) (hi : i < rows.length) :
    totalScoreAt pols rows i = rowScore pols rows (rows.getD i ⟨"", []⟩) := by
  unfold totalScoreAt rowScore
  congr 1
  refine List.map_congr_left ?_
  intro j _
  exact normCol_getD pols rows j i hi

lemma range_map_getD (g : Row → ℚ) (l : List Row) :
    (List.range l.length).map (fun i => g (l.getD i ⟨"", []⟩)) = l.map g := by
  induction l with
  | nil => simp
  | cons r rs ih =>
    simp only [List.length_cons, List.range_succ_eq_map, List.map_cons,
      List.map_map]
    refine congrArg₂ List.cons rfl ?_
    rw [← ih]
    refine List.map_congr_left ?_
    intro i _
    simp [Function.comp]

end CF
namespace CF

lemma getD_map_gen {α β : Type} (f : α → β) (l : List α) (i : ℕ)
    (da : α) (db : β) (h : i < l.length) :
    (l.map f).getD i db = f (l.getD i da) := by
  induction l generalizing i with
  | nil => simp at h
  | cons x xs ih =>
    cases i with
    | zero => simp
    | succ j =>
      simp only [List.map_cons, List.getD_cons_succ]
      exact ih j (by simpa using h)

lemma totals_eq_map_rowScore (pols : List Polarity) (rows : List Row) :
    totals pols rows = rows.map (rowScore pols rows) := by
  unfold totals
  rw [← range_map_getD (rowScore pols rows) rows]
  refine List.map_congr_left ?_
  intro i hi
  exact totalScoreAt_eq_rowScore pols rows i (List.mem_range.mp hi)

lemma normTotals_eq_map_rowNormTotal (pols : List Polarity)
    (rows : List Row) :
    normTotals pols rows = rows.map (rowNormTotal pols rows) := by
  unfold normTotals rowNormTotal
  rw [totals_eq_map_rowScore]
  by_cases htie :
      listMax (rows.map (rowScore pols rows))
        = listMin (rows.map (rowScore pols rows))
  · rw [if_pos htie, List.map_map]
    refine List.map_congr_left ?_
    intro r _
    simp [htie]
  · rw [if_neg htie, List.map_map]
    refine List.map_congr_left ?_
    intro r _
    simp [htie]

lemma zipWith_name_map (g : Row → ℕ) (rows : List Row) :
    List.zipWith (fun r k => (r.name, k)) rows (rows.map g)
      = rows.map (fun r => (r.name, g r)) := by
  induction rows with
  | nil => rfl
  | cons r rs ih => simp [ih]

lemma ranks_map_eq (pols : List Polarity) (rows : List Row) :
    ranks (rows.map (rowNormTotal pols rows))
      = rows.map (rowRank pols rows) := by
  unfold ranks rowRank
  rw [List.map_map]
  refine List.map_congr_left ?_
  intro r _
  simp only [Function.comp_def]
  rw [List.countP_map]
  rfl

lemma runModel_eq_map_rowRank (pols : List Polarity) (rows : List Row) :
    runModel pols rows
      = rows.map (fun r => (r.name, rowRank pols rows r)) := by
  unfold runModel
  rw [normTotals_eq_map_rowNormTotal, ranks_map_eq, zipWith_name_map]

end CF
namespace CF

lemma colVals_perm {rows₁ rows₂ : List Row} (h : rows₁.Perm rows₂)
    (j : ℕ) : (colVals rows₁ j).Perm (colVals rows₂ j) :=
  h.map _

lemma rowScore_perm (pols : List Polarity) {rows₁ rows₂ : List Row}
    (h : rows₁.Perm rows₂) (r : Row) :
    rowScore pols rows₁ r = rowScore pols rows₂ r := by
  unfold rowScore
  congr 1
  refine List.map_congr_left ?_
  intro j _
  have hmn := listMin_perm (colVals_perm h j)
  have hmx := listMax_perm (colVals_perm h j)
  cases hp : pols.getD j Polarity.scale <;> simp [hmn, hmx]

lemma totalsMap_perm (pols : List Polarity) {rows₁ rows₂ : List Row}
    (h : rows₁.Perm rows₂) :
    (rows₁.map (rowScore pols rows₁)).Perm
      (rows₂.map (rowScore pols rows₂)) := by
  have heq : rows₂.map (rowScore pols rows₂)
      = rows₂.map (rowScore pols rows₁) :=
    List.map_congr_left (fun r _ => (rowScore_perm pols h r).symm)
  rw [heq]
  exact h.map _

lemma rowNormTotal_perm (pols : List Polarity) {rows₁ rows₂ : List Row}
    (h : rows₁.Perm rows₂) (r : Row) :
    rowNormTotal pols rows₁ r = rowNormTotal pols rows₂ r := by
  unfold rowNormTotal
  have hmn := listMin_perm (totalsMap_perm pols h)
  have hmx := listMax_perm (totalsMap_perm pols h)
  simp only [hmn, hmx, rowScore_perm pols h r]

lemma rowRank_perm (pols : List Polarity) {rows₁ rows₂ : List Row}
    (h : rows₁.Perm rows₂) (r : Row) :
    rowRank pols rows₁ r = rowRank pols rows₂ r := by
  unfold rowRank
  have hpred : (fun r' =>
        decide (rowNormTotal pols rows₁ r < rowNormTotal pols rows₁ r'))
      = (fun r' =>
        decide (rowNormTotal pols rows₂ r < rowNormTotal pols rows₂ r')) := by
    funext r'
    rw [rowNormTotal_perm pols h r, rowNormTotal_perm pols h r']
  rw [hpred, h.countP_eq]

/-- C7: for every polarity assignment and scenario × criterion matrix, and
every permutation of its rows, the full normalize-aggregate-rank pipeline on
the permuted matrix produces a permutation of the original (name, rank)
table, and assigns each row (named scenario) the same rank as on the
original matrix. -/
theorem runModel_perm_invariant (pols : List Polarity)
    (rows₁ rows₂ : List Row) (hperm : rows₁.Perm rows₂) :
    (runModel pols rows₁).Perm (runModel pols rows₂)
    ∧ ∀ r ∈ rows₁, rowRank pols rows₁ r = rowRank pols rows₂ r := by
  constructor
  · rw [runModel_eq_map_rowRank, runModel_eq_map_rowRank]
    have heq : rows₂.map (fun r => (r.name, rowRank pols rows₂ r))
        = rows₂.map (fun r => (r.name, rowRank pols rows₁ r)) :=
      List.map_congr_left (fun r _ => by rw [rowRank_perm pols hperm r])
    rw [heq]
    exact hperm.map _
  · intro r _
    exact rowRank_perm pols hperm r

theorem runModel_perm_invariant_witness :
    (runModel [Polarity.posTrend]
        [⟨"A", [1]⟩, ⟨"B", [2]⟩]).Perm
      (runModel [Polarity.posTrend]
        [⟨"B", [2]⟩, ⟨"A", [1]⟩]) :=
  (runModel_perm_invariant [Polarity.posTrend]
    [⟨"A", [1]⟩, ⟨"B", [2]⟩] [⟨"B", [2]⟩, ⟨"A", [1]⟩]
    (List.Perm.swap _ _ _)).1

end CF
namespace CF

lemma range_map_sum (f : ℕ → ℚ) (n : ℕ) :
    ((List.range n).map f).sum = ∑ j in Finset.range n, f j := by
  induction n with
  | zero => simp
  | succ m ih =>
    rw [List.range_succ, List.map_append, List.sum_append,
      Finset.sum_range_succ, ih]
    simp

lemma totals_length (pols : List Polarity) (rows : List Row) :
    (totals pols rows).length = rows.length := by
  simp [totals]

lemma totals_getD (pols : List Polarity) (rows : List Row) (i : ℕ)
    (hi : i < rows.length) :
    (totals pols rows).getD i 0 = totalScoreAt pols rows i := by
  unfold totals
  rw [getD_map_gen (totalScoreAt pols rows) (List.range rows.length) i 0 0
    (by simpa using hi)]
  congr 1
  rw [List.getD_eq_getElem _ _ (by simpa using hi)]
  simp

/-- C5: for every matrix, the aggregation step sets the scenario at row `i`
to total score `∑ over criteria of its normalized cell`, and sets its
normalized total to `1 + 9*(total - mn)/(mx - mn)` when the maximum total
`mx` differs from the minimum total `mn`, and to the constant 5 when all
totals are equal (`mx = mn`), where `mn` and `mx` are characterized
abstractly as a lower (resp. upper) bound belonging to the totals list. -/
theorem aggregate_and_rescale_spec (pols : List Polarity) (rows : List Row)
    (i : ℕ) (hi : i < rows.length) (mn mx : ℚ)
    (hmn : mn ∈ totals pols rows ∧ ∀ a ∈ totals pols rows, mn ≤ a)
    (hmx : mx ∈ totals pols rows ∧ ∀ a ∈ totals pols rows, a ≤ mx) :
    (totals pols rows).getD i 0
        = ∑ j in Finset.range pols.length, (normCol pols rows j).getD i 0
    ∧ (mx ≠ mn → (normTotals pols rows).getD i 0
        = 1 + 9 * ((totals pols rows).getD i 0 - mn) / (mx - mn))
    ∧ (mx = mn → (normTotals pols rows).getD i 0 = 5) := by
  have hmn' : listMin (totals pols rows) = mn := listMin_unique hmn.1 hmn.2
  have hmx' : listMax (totals pols rows) = mx := listMax_unique hmx.1 hmx.2
  have hlen : i < (totals pols rows).length := by
    rw [totals_length]; exact hi
  refine ⟨?_, ?_, ?_⟩
  · rw [totals_getD pols rows i hi]
    unfold totalScoreAt
    exact range_map_sum _ _
  · intro hne
    have hne' : listMax (totals pols rows) ≠ listMin (totals pols rows) := by
      rw [hmn', hmx']; exact hne
    unfold normTotals
    rw [if_neg hne', getD_map _ _ i hlen, hmn', hmx']
  · intro heq
    have heq' : listMax (totals pols rows) = listMin (totals pols rows) := by
      rw [hmn', hmx', heq]
    unfold normTotals
    rw [if_pos heq', getD_map _ _ i hlen]

theorem aggregate_and_rescale_spec_witness :
    (totals [Polarity.scale] [⟨"A", [2]⟩, ⟨"B", [7]⟩]).getD 0 0
      = ∑ j in Finset.range 1,
          (normCol [Polarity.scale] [⟨"A", [2]⟩, ⟨"B", [7]⟩] j).getD 0 0 := by
  have htot : totals [Polarity.scale] [⟨"A", [2]⟩, ⟨"B", [7]⟩]
      = [2, 7] := by
    simp [totals, totalScoreAt, normCol, normalizeValues, colVals,
      List.range_succ]
  have hmn : (2 : ℚ) ∈ totals [Polarity.scale] [⟨"A", [2]⟩, ⟨"B", [7]⟩]
      ∧ ∀ a ∈ totals [Polarity.scale] [⟨"A", [2]⟩, ⟨"B", [7]⟩],
          (2 : ℚ) ≤ a := by
    rw [htot]
    constructor
    · simp
    · norm_num [List.forall_mem_cons]
  have hmx : (7 : ℚ) ∈ totals [Polarity.scale] [⟨"A", [2]⟩, ⟨"B", [7]⟩]
      ∧ ∀ a ∈ totals [Polarity.scale] [⟨"A", [2]⟩, ⟨"B", [7]⟩],
          a ≤ (7 : ℚ) := by
    rw [htot]
    constructor
    · simp
    · norm_num [List.forall_mem_cons]
  exact (aggregate_and_rescale_spec [Polarity.scale]
    [⟨"A", [2]⟩, ⟨"B", [7]⟩] 0 (by norm_num) 2 7 hmn hmx).1

end CF
namespace CF

lemma ranks_getD (scores : List ℚ) (i : ℕ) (h : i < scores.length) :
    (ranks scores).getD i 0
      = 1 + scores.countP (fun t => decide (scores.getD i 0 < t)) := by
  unfold ranks
  rw [getD_map_gen _ scores i 0 0 h]

lemma countP_gt_split (scores : List ℚ) (a b : ℚ) (hab : b < a)
    (hgap : ∀ t ∈ scores, ¬(b < t ∧ t < a)) :
    scores.countP (fun t => decide (b < t))
      = scores.countP (fun t => decide (a < t))
        + scores.countP (fun t => decide (t = a)) := by
  induction scores with
  | nil => simp
  | cons x xs ih =>
    have hgx := hgap x (List.mem_cons_self _ _)
    have ihh := ih (fun t ht => hgap t (List.mem_cons_of_mem _ ht))
    simp only [List.countP_cons, decide_eq_true_eq]
    rcases lt_trichotomy x a with hlt | heq | hgt
    · have hbx : ¬(b < x) := fun hb => hgx ⟨hb, hlt⟩
      rw [if_neg hbx, if_neg (not_lt_of_gt hlt), if_neg (ne_of_lt hlt)]
      omega
    · subst heq
      rw [if_pos hab, if_neg (lt_irrefl x), if_pos rfl]
      omega
    · have hbx : b < x := lt_trans hab hgt
      rw [if_pos hbx, if_pos hgt, if_neg (ne_of_gt hgt)]
      omega

end CF
namespace CF

/-- C6: ranking is descending with `method="min"` semantics: positions with
equal scores receive the same rank, and at the next strictly lower distinct
score (no score strictly between) the rank equals the higher group's rank
plus the size of that tie group; concretely, scores {8.5, 8.5, 6.0} receive
ranks {1, 1, 3}. -/
theorem ranks_min_method (scores : List ℚ) :
    (∀ i j, i < scores.length → j < scores.length →
        scores.getD i 0 = scores.getD j 0 →
        (ranks scores).getD i 0 = (ranks scores).getD j 0)
    ∧ (∀ i j, i < scores.length → j < scores.length →
        scores.getD j 0 < scores.getD i 0 →
        (∀ t ∈ scores, ¬(scores.getD j 0 < t ∧ t < scores.getD i 0)) →
        (ranks scores).getD j 0
          = (ranks scores).getD i 0
              + scores.countP (fun t => decide (t = scores.getD i 0)))
    ∧ ranks [(17 : ℚ)/2, 17/2, 6] = [1, 1, 3] := by
  refine ⟨?_, ?_, ?_⟩
  · intro i j hi hj hij
    rw [ranks_getD scores i hi, ranks_getD scores j hj, hij]
  · intro i j hi hj hlt hgap
    rw [ranks_getD scores i hi, ranks_getD scores j hj,
      countP_gt_split scores (scores.getD i 0) (scores.getD j 0) hlt hgap]
    omega
  · simp only [ranks, List.map_cons, List.map_nil, List.countP_cons,
      List.countP_nil]
    norm_num

theorem ranks_min_method_witness :
    (ranks [(17 : ℚ)/2, 17/2, 6]).getD 2 0
      = (ranks [(17 : ℚ)/2, 17/2, 6]).getD 0 0
        + List.countP
            (fun t => decide (t = ([(17 : ℚ)/2, 17/2, 6].getD 0 0)))
            [(17 : ℚ)/2, 17/2, 6] :=
  (ranks_min_method [(17 : ℚ)/2, 17/2, 6]).2.1 0 2
    (by norm_num) (by norm_num)
    (by norm_num)
    (by norm_num [List.forall_mem_cons])

end CF
namespace CF

/-- C8 counterexample: a missing cell in a non-scale criteria column is
coerced to 1, not to the neutral value 5 (the `except:` fallback that
assigns 5 replaces a whole column and is unreachable after this coercion). -/
theorem coerceCriteriaColumn_missing_counterexample :
    coerceCriteriaColumn false [Cell.missing] = [1]
    ∧ coerceCriteriaColumn false [Cell.missing] ≠ [5] := by
  refine ⟨rfl, ?_⟩
  intro h
  have h1 : (1 : ℚ) = 5 := by
    have h2 := congrArg (fun l => l.getD 0 0) h
    simpa [coerceCriteriaColumn, toNumericFillna] using h2
  norm_num at h1

/-- C8 (amended): every missing or non-numeric criteria cell is coerced to
1.0 at the input boundary (and stays 1 after the `[1,10]` clip applied to
scale criteria), rather than to the neutral value 5; no error is raised. -/
theorem coerceCriteriaColumn_bad_cell (isScale : Bool) (col : List Cell)
    (i : ℕ) (hi : i < col.length)
    (hbad : col.getD i Cell.missing = Cell.missing
      ∨ col.getD i Cell.missing = Cell.nonNumeric) :
    (coerceCriteriaColumn isScale col).getD i 0 = 1 := by
  have hval : (toNumericFillna 1) (col.getD i Cell.missing) = 1 := by
    rcases hbad with hb | hb <;> rw [hb] <;> rfl
  cases isScale with
  | false =>
    simp only [coerceCriteriaColumn, Bool.false_eq_true, if_false]
    rw [getD_map_gen (toNumericFillna 1) col i Cell.missing 0 hi, hval]
  | true =>
    simp only [coerceCriteriaColumn, if_true]
    rw [List.map_map,
      getD_map_gen _ col i Cell.missing 0 hi]
    simp only [Function.comp_def, hval]
    norm_num

theorem coerceCriteriaColumn_bad_cell_witness :
    (coerceCriteriaColumn true [Cell.nonNumeric]).getD 0 0 = 1 :=
  coerceCriteriaColumn_bad_cell true [Cell.nonNumeric] 0 (by norm_num)
    (Or.inr rfl)

/-- C10: every missing or non-numeric scenario-percentage cell is coerced to
100.0 before scenario emissions are computed, and a 100% cell leaves that
item's emission contribution `usage * (pct/100) * factor` identical to the
baseline contribution `usage * factor`. -/
theorem coercePctColumn_bad_cell (col : List Cell) (i : ℕ)
    (hi : i < col.length)
    (hbad : col.getD i Cell.missing = Cell.missing
      ∨ col.getD i Cell.missing = Cell.nonNumeric) :
    (coercePctColumn col).getD i 0 = 100
    ∧ ∀ u f : ℚ,
        u * ((coercePctColumn col).getD i 0 / 100) * f = u * f := by
  have hval : (coercePctColumn col).getD i 0 = 100 := by
    unfold coercePctColumn
    rw [getD_map_gen (toNumericFillna 100) col i Cell.missing 0 hi]
    rcases hbad with hb | hb <;> rw [hb] <;> rfl
  refine ⟨hval, ?_⟩
  intro u f
  rw [hval]
  norm_num

theorem coercePctColumn_bad_cell_witness :
    (coercePctColumn [Cell.num 80, Cell.missing]).getD 1 0 = 100 :=
  (coercePctColumn_bad_cell [Cell.num 80, Cell.missing] 1 (by norm_num)
    (Or.inl rfl)).1

end CF
namespace CF

/-- One column of the "Run Model" normalization loop with the partiality of
`np.min` / `np.max` made explicit: on an empty column (no scenario rows) the
numpy reductions raise `ValueError`, modelled as `none`.  Scale columns are
not visited by the loop, so no reduction is invoked for them. -/
def scaledColE (rows : List Row) (p : Polarity) (j : ℕ) :
    Option (List ℚ) :=
  match p with
  | Polarity.scale => some (colVals rows j)
  | Polarity.invert =>
      (npMin (colVals rows j)).bind (fun mn =>
        (npMax (colVals rows j)).bind (fun mx =>
          some (if mx = mn then
                  (if mn ≠ 0 then (colVals rows j).map (fun _ => 10)
                   else (colVals rows j).map (fun _ => 0))
                else
                  (colVals rows j).map (fun v =>
                    10 - 9 * (v - mn) / (mx - mn)))))
  | Polarity.posTrend =>
      (npMin (colVals rows j)).bind (fun mn =>
        (npMax (colVals rows j)).bind (fun mx =>
          some (if mx = mn then
                  (if mn ≠ 0 then (colVals rows j).map (fun _ => 10)
                   else (colVals rows j).map (fun _ => 0))
                else
                  (colVals rows j).map (fun v =>
                    1 + 9 * (v - mn) / (mx - mn)))))

/-- Sequencing of the per-column loop: normalize the columns one by one,
propagating a raised exception (`none`) from any of them. -/
def seqCols (js : List ℕ) (f : ℕ → Option (List ℚ)) :
    Option (List (List ℚ)) :=
  match js with
  | [] => some []
  | j :: rest =>
      (f j).bind (fun c => (seqCols rest f).bind (fun cs => some (c :: cs)))

/-- The full "Run Model" computation with explicit partiality: normalize
every column, total each row, min-max rescale the totals, rank.  `none`
models a raised exception. -/
def runModelE (pols : List Polarity) (rows : List Row) :
    Option (List (String × ℕ)) :=
  (seqCols (List.range pols.length)
      (fun j => scaledColE rows (pols.getD j Polarity.scale) j)).bind
    (fun cols =>
      let ts := (List.range rows.length).map
        (fun i => (cols.map (fun c => c.getD i 0)).sum)
      let normed :=
        if listMax ts = listMin ts then ts.map (fun _ => (5 : ℚ))
        else ts.map (fun t =>
          1 + 9 * (t - listMin ts) / (listMax ts - listMin ts))
      some (List.zipWith (fun r k => (r.name, k)) rows (ranks normed)))

lemma npMin_of_ne_nil {l : List ℚ} (h : l ≠ []) :
    npMin l = some (listMin l) := by
  cases l with
  | nil => exact absurd rfl h
  | cons x xs => rfl

lemma npMax_of_ne_nil {l : List ℚ} (h : l ≠ []) :
    npMax l = some (listMax l) := by
  cases l with
  | nil => exact absurd rfl h
  | cons x xs => rfl

lemma colVals_ne_nil {rows : List Row} (h : rows ≠ []) (j : ℕ) :
    colVals rows j ≠ [] := by
  cases rows with
  | nil => exact absurd rfl h
  | cons r rs => simp [colVals]

lemma scaledColE_of_ne_nil {rows : List Row} (h : rows ≠ [])
    (p : Polarity) (j : ℕ) :
    scaledColE rows p j = some (normalizeValues p (colVals rows j)) := by
  have hc := colVals_ne_nil h j
  cases p with
  | scale => rfl
  | invert =>
    simp only [scaledColE, npMin_of_ne_nil hc, npMax_of_ne_nil hc,
      normalizeValues]
    rfl
  | posTrend =>
    simp only [scaledColE, npMin_of_ne_nil hc, npMax_of_ne_nil hc,
      normalizeValues]
    rfl

lemma seqCols_some (g : ℕ → List ℚ) (l : List ℕ) :
    seqCols l (fun x => some (g x)) = some (l.map g) := by
  induction l with
  | nil => rfl
  | cons x xs ih => simp [seqCols, ih]

/-- C9 counterexample: on an empty scenario list with an `invert` criterion
column present, the core normalization hits `np.min` of an empty array and
raises (`none`), rather than returning a defined numeric output. -/
theorem runModelE_empty_raises :
    runModelE [Polarity.invert] [] = none := rfl

/-- C9 (amended): for every polarity assignment and every NON-EMPTY scenario
list — any rational values, a single scenario, all-equal scores, zero
baselines included — the core computation runs to completion without an
exception and returns the defined ranked table `runModel`.  (On an empty
scenario list `np.min` raises, and the application guards "Run Model"
behind an emptiness check; the emissions calculator `computeScenario` is a
total function for every input, empty lists included.) -/
theorem runModelE_total_of_nonempty (pols : List Polarity)
    (rows : List Row) (hne : rows ≠ []) :
    runModelE pols rows = some (runModel pols rows) := by
  unfold runModelE
  have hfun : (fun j => scaledColE rows (pols.getD j Polarity.scale) j)
      = (fun j => some (normCol pols rows j)) := by
    funext j
    rw [scaledColE_of_ne_nil hne]
    rfl
  rw [hfun, seqCols_some (normCol pols rows) (List.range pols.length),
    Option.some_bind]
  have hts : (List.range rows.length).map
        (fun i => (((List.range pols.length).map
          (normCol pols rows)).map (fun c => c.getD i 0)).sum)
      = totals pols rows := by
    unfold totals totalScoreAt
    refine List.map_congr_left ?_
    intro i _
    rw [List.map_map]
    rfl
  rw [hts]
  unfold runModel normTotals
  rfl

theorem runModelE_total_of_nonempty_witness :
    runModelE [Polarity.invert] [⟨"A", [1]⟩]
      = some (runModel [Polarity.invert] [⟨"A", [1]⟩]) :=
  runModelE_total_of_nonempty [Polarity.invert] [⟨"A", [1]⟩] (by simp)

end CF
